import Mathlib

/-
Verification of the term / context / SAT-core specification of this
repository against a shallow embedding of the sources.

Conventions used throughout:
- C 32-bit integers are modelled as natural-number bit patterns in
  [0, 2^32); a pattern p with p >= 2^31 denotes the negative int32
  value p - 2^32 (two's complement).  Arithmetic that can overflow is
  reduced modulo 2^32 explicitly.
- pure inline C functions are translated function by function from the
  headers under src/;
- implementation files that are absent from the tree (terms.c,
  context.c, new_sat_solver.c, symbol_tables.c, command_line.c,
  yices_exit_codes.h) are modelled from the specification text; each
  such definition carries a doc comment starting with
  "Modelled from the spec:".
-/

namespace Terms

/-- Number of 32-bit patterns, 2^32. -/
def u32 : Nat := 4294967296

/-- Number of nonnegative int32 patterns, 2^31 (patterns at or above this
have the sign bit set). -/
def i32top : Nat := 2147483648

/-- From src/src/terms.h pos_term: `(i << 1)` on int32, as a 32-bit
pattern. -/
def pos_term (i : Nat) : Nat := (i <<< 1) % u32

/-- From src/src/terms.h neg_term: `(i << 1) | 1` on int32. -/
def neg_term (i : Nat) : Nat := ((i <<< 1) % u32) ||| 1

/-- From src/src/terms.h mk_term: `(i << 1) | (((int32_t) tt) ^ 1)`. -/
def mk_term (i : Nat) (tt : Bool) : Nat :=
  ((i <<< 1) % u32) ||| (if tt then 0 else 1)

/-- From src/src/terms.h index_of: `x >> 1`, an arithmetic right shift
on int32 (the sign bit is replicated). -/
def index_of (x : Nat) : Nat :=
  if x < i32top then x / 2 else x / 2 + i32top

/-- From src/src/terms.h polarity_of: `((uint32_t) x) & 1`. -/
def polarity_of (x : Nat) : Nat := x &&& 1

/-- From src/src/terms.h is_pos_term. -/
def is_pos_term (x : Nat) : Bool := polarity_of x == 0

/-- From src/src/terms.h is_neg_term. -/
def is_neg_term (x : Nat) : Bool := polarity_of x != 0

/-- From src/src/terms.h opposite_term: `x ^ 1`. -/
def opposite_term (x : Nat) : Nat := x ^^^ 1

/-- From src/src/terms.h signed_term: `x ^ (((int32_t) tt) ^ 1)`. -/
def signed_term (x : Nat) (tt : Bool) : Nat :=
  x ^^^ (if tt then 0 else 1)

/-- From src/src/terms.h opposite_bool_terms: `(x ^ y) == 1`. -/
def opposite_bool_terms (x y : Nat) : Bool := (x ^^^ y) == 1

/-- A term occurrence is valid when its sign bit is 0
(src/src/terms.h: "bit[31] = sign bit = 0"). -/
def validOcc (x : Nat) : Bool := x < i32top

/-- Reserved index 0 and the boolean constant, src/src/terms.h enum:
bool_const = 1, true_term = 2, false_term = 3. -/
def bool_const : Nat := 1

def true_term : Nat := 2

def false_term : Nat := 3

/-- Term kinds, from the term_kind_t enumeration in src/src/terms.h. -/
inductive TermKind where
  | unused | reserved
  | constant | bv64const | bvconst
  | uninterpreted
  | ite | eq | distinct | or | xor
  | bvarray | bvdiv | bvrem | bvsdiv | bvsrem | bvsmod
  | bvshl | bvlshr | bvashr
  | bveqAtom | bvgeAtom | bvsgeAtom
  | bit
  | powerProduct | bv64poly | bvpoly
deriving DecidableEq

/-- Modelled from the spec (terms.c is not in the tree): a term-table
entry holds a kind tag, a type reference (0 is bool, n+1 is a bitvector
of width n) and a descriptor payload; structural equality of entries is
equality of kind, type and descriptor. -/
structure TermData where
  kind : TermKind
  typ : Nat
  desc : List Nat
deriving DecidableEq

/-- A type reference is Boolean exactly when it is 0 in this model. -/
def is_boolean_type (tau : Nat) : Bool := tau == 0

/-- Modelled from the spec: the initial term table; index 0 is reserved,
index 1 is the Boolean constant true. -/
def init_term_table : List TermData :=
  [⟨TermKind.reserved, 0, []⟩, ⟨TermKind.constant, 0, [0]⟩]

/-- Index of the first entry structurally equal to d in the table, if
any (the hash-consing lookup of int_hash_tables). -/
def lookupIdx : List TermData → TermData → Option Nat
  | [], _ => none
  | x :: xs, d =>
      if x = d then some 0 else (lookupIdx xs d).map (fun i => i + 1)

/-- Modelled from the spec: the hash-consing step shared by all
constructors other than new_uninterpreted_term; look the entry up by
structural equality and return the existing index, otherwise append a
fresh entry at the end of the table. -/
def hashcons (tbl : List TermData) (d : TermData) : Nat × List TermData :=
  match lookupIdx tbl d with
  | some i => (i, tbl)
  | none => (tbl.length, tbl ++ [d])

/-- Modelled from the spec: constant_term does hash consing on
(CONSTANT_TERM, tau, index) and returns the positive occurrence. -/
def constant_term (tbl : List TermData) (tau : Nat) (idx : Nat) :
    Nat × List TermData :=
  let r := hashcons tbl ⟨TermKind.constant, tau, [idx]⟩
  (pos_term r.1, r.2)

/-- Modelled from the spec: new_uninterpreted_term always creates a
fresh term of type tau; it never looks the entry up. -/
def new_uninterpreted_term (tbl : List TermData) (tau : Nat) :
    Nat × List TermData :=
  (pos_term tbl.length, tbl ++ [⟨TermKind.uninterpreted, tau, []⟩])

/-- Modelled from the spec: eq_term hash-conses (EQ_TERM, bool, [l, r])
and returns the positive occurrence. -/
def eq_term (tbl : List TermData) (l r : Nat) : Nat × List TermData :=
  let s := hashcons tbl ⟨TermKind.eq, 0, [l, r]⟩
  (pos_term s.1, s.2)

/-- Modelled from the spec: or_term hash-conses (OR_TERM, bool, args)
and returns the positive occurrence. -/
def or_term (tbl : List TermData) (args : List Nat) : Nat × List TermData :=
  let s := hashcons tbl ⟨TermKind.or, 0, args⟩
  (pos_term s.1, s.2)

/-- Modelled from the spec: ite_term hash-conses
(ITE_TERM, tau, [c, l, r]) and returns the positive occurrence. -/
def ite_term (tbl : List TermData) (tau : Nat) (c l r : Nat) :
    Nat × List TermData :=
  let s := hashcons tbl ⟨TermKind.ite, tau, [c, l, r]⟩
  (pos_term s.1, s.2)

/-- From src/src/terms.h not_term: negation just flips the polarity bit;
the argument must be a Boolean occurrence. -/
def not_term (p : Nat) : Nat := opposite_term p

/-- An occurrence respects the polarity convention of src/src/terms.h
("All occurrences of a non-boolean term t are positive"): if its
polarity bit is 1 then the underlying term is Boolean. -/
def occPolarityOk (tbl : List TermData) (t : Nat) : Prop :=
  polarity_of t = 1 →
    index_of t < tbl.length →
      is_boolean_type (tbl.getD (index_of t) ⟨TermKind.unused, 0, []⟩).typ
        = true

end Terms

namespace Nsat

/-- Number of 32-bit patterns, 2^32 (literals are uint32 in
src/src/solvers/cdcl/new_sat_solver.h). -/
def u32 : Nat := 4294967296

/-- From src/src/solvers/cdcl/new_sat_solver.h pos: `x << 1` on uint32. -/
def pos (x : Nat) : Nat := (x <<< 1) % u32

/-- From src/src/solvers/cdcl/new_sat_solver.h neg: `(x << 1) + 1`. -/
def neg (x : Nat) : Nat := ((x <<< 1) + 1) % u32

/-- From src/src/solvers/cdcl/new_sat_solver.h var_of: `l >> 1`. -/
def var_of (l : Nat) : Nat := l >>> 1

/-- From src/src/solvers/cdcl/new_sat_solver.h sign_of: `l & 1`. -/
def sign_of (l : Nat) : Nat := l &&& 1

/-- From src/src/solvers/cdcl/new_sat_solver.h, the literal negation
written `not` in the source: `l ^ 1`. -/
def litNot (l : Nat) : Nat := l ^^^ 1

/-- From src/src/solvers/cdcl/new_sat_solver.h opposite:
`(l1 ^ l2) == 1`. -/
def opposite (l1 l2 : Nat) : Bool := (l1 ^^^ l2) == 1

/-- From src/src/solvers/cdcl/new_sat_solver.h is_pos: `!(l & 1)`. -/
def is_pos (l : Nat) : Bool := (l &&& 1) == 0

end Nsat

namespace Pool

/-- Rounding up to the next multiple of four, the source expression
`(x + 3) & ~3` from src/src/solvers/cdcl/new_sat_solver.h. -/
def round4 (n : Nat) : Nat := ((n + 3) / 4) * 4

/-- Modelled from the spec (new_sat_solver.c is not in the tree): a
region of the clause pool is either a clause (length, auxiliary word,
literal array; the first two literals are the watched literals) or a
padding block of a given total length. -/
inductive Block where
  | clause (aux : Nat) (lits : List Nat)
  | padding (len : Nat)

/-- Size in 32-bit words occupied by a block: a clause of n literals
takes round4 (n + 2) words (header + literals, rounded up to a multiple
of four); a padding block takes its recorded length. -/
def Block.bsize : Block → Nat
  | Block.clause _ lits => round4 (lits.length + 2)
  | Block.padding len => len

/-- Word-level image of a block in the data array: a clause at offset i
has data i = length, data (i+1) = aux, then the literals, then unused
words up to the 4-aligned block size; a padding block has data i = 0 and
data (i+1) = its total length. -/
def Block.words : Block → List Nat
  | Block.clause aux lits =>
      lits.length :: aux :: lits ++
        List.replicate (round4 (lits.length + 2) - (lits.length + 2)) 0
  | Block.padding len => 0 :: len :: List.replicate (len - 2) 0

/-- Total word size of a list of blocks. -/
def blocksSize (bs : List Block) : Nat := (bs.map Block.bsize).sum

/-- Offset of the i-th block in a block list. -/
def offsetOf (bs : List Block) (i : Nat) : Nat := blocksSize (bs.take i)

/-- Word-level image of a block list. -/
def blocksWords (bs : List Block) : List Nat := (bs.map Block.words).flatten

/-- Modelled from the spec: the clause pool is split into the problem
region, the learned region and free space; learned and size are the
word sizes of the two regions and capacity the length of the data
array. -/
structure ClausePool where
  problem : List Block
  learnedb : List Block
  capacity : Nat

def ClausePool.learned (p : ClausePool) : Nat := blocksSize p.problem

def ClausePool.size (p : ClausePool) : Nat :=
  blocksSize p.problem + blocksSize p.learnedb

def ClausePool.blocks (p : ClausePool) : List Block :=
  p.problem ++ p.learnedb

/-- Data array of the pool: the used region followed by free words. -/
def ClausePool.data (p : ClausePool) : List Nat :=
  blocksWords p.blocks ++ List.replicate (p.capacity - p.size) 0

/-- From src/src/solvers/cdcl/new_sat_solver.h:
DEF_CLAUSE_POOL_CAPACITY = 262144. -/
def DEF_CLAUSE_POOL_CAPACITY : Nat := 262144

/-- Modelled from the spec: a fresh pool has no clauses and the default
capacity. -/
def initPool : ClausePool :=
  ⟨[], [], DEF_CLAUSE_POOL_CAPACITY⟩

/-- Modelled from the spec: the pool grows when a clause does not fit;
the new capacity is kept a multiple of four. -/
def ensureCapacity (p : ClausePool) (n : Nat) : Nat :=
  if n ≤ p.capacity then p.capacity else round4 n

/-- Modelled from the spec: append a problem clause (all problem
clauses are added while the learned region is empty). -/
def addProblemClause (p : ClausePool) (aux : Nat) (lits : List Nat) :
    ClausePool :=
  ⟨p.problem ++ [Block.clause aux lits], p.learnedb,
    ensureCapacity p (p.size + round4 (lits.length + 2))⟩

/-- Modelled from the spec: append a learned clause at the end of the
pool. -/
def addLearnedClause (p : ClausePool) (aux : Nat) (lits : List Nat) :
    ClausePool :=
  ⟨p.problem, p.learnedb ++ [Block.clause aux lits],
    ensureCapacity p (p.size + round4 (lits.length + 2))⟩

/-- Turn a block into padding covering the same words (clause
deletion). -/
def padBlock (b : Block) : Block := Block.padding b.bsize

/-- Modelled from the spec: delete the i-th block of a region by
overwriting it with a padding block of the same length. -/
def deleteBlock : List Block → Nat → List Block
  | [], _ => []
  | b :: bs, 0 => padBlock b :: bs
  | b :: bs, Nat.succ n => b :: deleteBlock bs n

/-- Modelled from the spec: shorten a clause in place, keeping its
first m literals; the freed tail, when nonempty, becomes a padding
block. -/
def shrinkBlock1 (b : Block) (m : Nat) : List Block :=
  match b with
  | Block.clause aux lits =>
      let rest := round4 (lits.length + 2) - round4 (m + 2)
      if rest = 0 then [Block.clause aux (lits.take m)]
      else [Block.clause aux (lits.take m), Block.padding rest]
  | Block.padding len => [Block.padding len]

/-- Shorten the i-th block of a region. -/
def shrinkBlock : List Block → Nat → Nat → List Block
  | [], _, _ => []
  | b :: bs, 0, m => shrinkBlock1 b m ++ bs
  | b :: bs, Nat.succ n, m => b :: shrinkBlock bs n m

/-- Reachable clause-pool states: the initial pool, clause additions
(clauses have at least two literals; problem clauses are added before
any learned clause), deletions and in-place shortenings. -/
inductive Reachable : ClausePool → Prop where
  | init : Reachable initPool
  | addProblem (p : ClausePool) (aux : Nat) (lits : List Nat) :
      Reachable p → 2 ≤ lits.length → p.learnedb = [] →
      Reachable (addProblemClause p aux lits)
  | addLearned (p : ClausePool) (aux : Nat) (lits : List Nat) :
      Reachable p → 2 ≤ lits.length →
      Reachable (addLearnedClause p aux lits)
  | delProblem (p : ClausePool) (i : Nat) :
      Reachable p →
      Reachable ⟨deleteBlock p.problem i, p.learnedb, p.capacity⟩
  | delLearned (p : ClausePool) (i : Nat) :
      Reachable p →
      Reachable ⟨p.problem, deleteBlock p.learnedb i, p.capacity⟩
  | shrinkProblem (p : ClausePool) (i m : Nat) :
      Reachable p → 2 ≤ m →
      Reachable ⟨shrinkBlock p.problem i m, p.learnedb, p.capacity⟩
  | shrinkLearned (p : ClausePool) (i m : Nat) :
      Reachable p → 2 ≤ m →
      Reachable ⟨p.problem, shrinkBlock p.learnedb i m, p.capacity⟩

/-- Well-formed block: a clause has at least two literals; a padding
block is a nonempty multiple of four words. -/
def Block.wf : Block → Prop
  | Block.clause _ lits => 2 ≤ lits.length
  | Block.padding len => len % 4 = 0 ∧ 4 ≤ len

/-- All blocks of a region are well formed. -/
def blocksWF (bs : List Block) : Prop := ∀ b, b ∈ bs → Block.wf b

/-- The in-array image required for a block at offset off: a clause has
data off = its length, data (off+1) = its auxiliary word and its
literals at data (off+2) ... data (off+1+len); a padding block has
data off = 0 and data (off+1) = its total length. -/
def BlockAt (data : List Nat) (off : Nat) : Block → Prop
  | Block.clause aux lits =>
      data.getD off 0 = lits.length ∧ 2 ≤ lits.length ∧
      data.getD (off + 1) 0 = aux ∧
      ∀ j, j < lits.length → data.getD (off + 2 + j) 0 = lits.getD j 0
  | Block.padding len =>
      data.getD off 0 = 0 ∧ data.getD (off + 1) 0 = len

/-- The invariant stated by the specification for the clause pool:
region bounds are ordered and 4-aligned, and the data array decomposes
into 4-aligned clauses and padding blocks, distinguished by the first
word (clause length at least 2 versus 0). -/
def PoolSpec (p : ClausePool) : Prop :=
  p.learned ≤ p.size ∧ p.size ≤ p.capacity ∧
  p.learned % 4 = 0 ∧ p.size % 4 = 0 ∧ p.capacity % 4 = 0 ∧
  ∀ i, ∀ hi : i < p.blocks.length,
    offsetOf p.blocks i % 4 = 0 ∧
    Block.wf (p.blocks.get ⟨i, hi⟩) ∧
    BlockAt p.data (offsetOf p.blocks i) (p.blocks.get ⟨i, hi⟩)

end Pool

namespace Watch

/-- Modelled from the spec (the watch vectors are filled by
new_sat_solver.c, which is not in the tree): watch-vector contents
reachable for a literal l.  A record is pushed either for a clause
cidx in which l is watched (cidx is 4-aligned, hence its two low-order
bits are zero; isWatchedClause says that cidx designates a clause of
length at least 3 in which l is watched) or for a binary clause
containing l, stored as (other_lit << 1) | 1. -/
inductive Reach (isWatchedClause : Nat → Prop) : List Nat → Prop where
  | nil : Reach isWatchedClause []
  | addClauseRec (w : List Nat) (cidx : Nat) :
      Reach isWatchedClause w → cidx % 4 = 0 → isWatchedClause cidx →
      Reach isWatchedClause (w ++ [cidx])
  | addBinaryRec (w : List Nat) (other : Nat) :
      Reach isWatchedClause w →
      Reach isWatchedClause (w ++ [2 * other + 1])

/-- Decoding of a binary record: shift right by one. -/
def recOtherLit (r : Nat) : Nat := r >>> 1

end Watch

namespace Ctx

/-- Option bit masks from src/src/context.h. -/
def VARELIM_OPTION_MASK : Nat := 0x10

def FLATTENOR_OPTION_MASK : Nat := 0x20

def FLATTENDISEQ_OPTION_MASK : Nat := 0x40

def EQABSTRACT_OPTION_MASK : Nat := 0x80

def ARITHELIM_OPTION_MASK : Nat := 0x100

def KEEP_ITE_OPTION_MASK : Nat := 0x200

def BVARITHELIM_OPTION_MASK : Nat := 0x400

def BREAKSYM_OPTION_MASK : Nat := 0x800

def PSEUDO_INVERSE_OPTION_MASK : Nat := 0x1000

def LAX_OPTION_MASK : Nat := 0x40000000

def DUMP_OPTION_MASK : Nat := 0x80000000

/-- Bitwise complement of a mask on 32 bits, the C expression `~m`
applied to a uint32 option word. -/
def not32 (m : Nat) : Nat := 0xFFFFFFFF ^^^ m

/-- From src/src/context.h enable_variable_elimination:
`options |= VARELIM_OPTION_MASK`. -/
def enable_variable_elimination (o : Nat) : Nat := o ||| VARELIM_OPTION_MASK

/-- From src/src/context.h disable_variable_elimination. -/
def disable_variable_elimination (o : Nat) : Nat :=
  o &&& not32 VARELIM_OPTION_MASK

/-- From src/src/context.h enable_or_flattening. -/
def enable_or_flattening (o : Nat) : Nat := o ||| FLATTENOR_OPTION_MASK

/-- From src/src/context.h disable_or_flattening: clears only the
FLATTENOR bit. -/
def disable_or_flattening (o : Nat) : Nat :=
  o &&& not32 FLATTENOR_OPTION_MASK

/-- From src/src/context.h enable_diseq_and_or_flattening: sets both
the FLATTENOR and the FLATTENDISEQ bits. -/
def enable_diseq_and_or_flattening (o : Nat) : Nat :=
  o ||| (FLATTENOR_OPTION_MASK ||| FLATTENDISEQ_OPTION_MASK)

/-- From src/src/context.h disable_diseq_and_or_flattening: clears both
bits. -/
def disable_diseq_and_or_flattening (o : Nat) : Nat :=
  o &&& not32 (FLATTENOR_OPTION_MASK ||| FLATTENDISEQ_OPTION_MASK)

/-- From src/src/context.h enable_eq_abstraction. -/
def enable_eq_abstraction (o : Nat) : Nat := o ||| EQABSTRACT_OPTION_MASK

/-- From src/src/context.h disable_eq_abstraction. -/
def disable_eq_abstraction (o : Nat) : Nat := o &&& not32 EQABSTRACT_OPTION_MASK

/-- From src/src/context.h enable_arith_elimination. -/
def enable_arith_elimination (o : Nat) : Nat := o ||| ARITHELIM_OPTION_MASK

/-- From src/src/context.h disable_arith_elimination. -/
def disable_arith_elimination (o : Nat) : Nat :=
  o &&& not32 ARITHELIM_OPTION_MASK

/-- From src/src/context.h enable_keep_ite. -/
def enable_keep_ite (o : Nat) : Nat := o ||| KEEP_ITE_OPTION_MASK

/-- From src/src/context.h disable_keep_ite. -/
def disable_keep_ite (o : Nat) : Nat := o &&& not32 KEEP_ITE_OPTION_MASK

/-- From src/src/context.h enable_bvarith_elimination. -/
def enable_bvarith_elimination (o : Nat) : Nat := o ||| BVARITHELIM_OPTION_MASK

/-- From src/src/context.h disable_bvarith_elimination. -/
def disable_bvarith_elimination (o : Nat) : Nat :=
  o &&& not32 BVARITHELIM_OPTION_MASK

/-- From src/src/context.h enable_symmetry_breaking. -/
def enable_symmetry_breaking (o : Nat) : Nat := o ||| BREAKSYM_OPTION_MASK

/-- From src/src/context.h disable_symmetry_breaking. -/
def disable_symmetry_breaking (o : Nat) : Nat := o &&& not32 BREAKSYM_OPTION_MASK

/-- From src/src/context.h enable_pseudo_inverse_simplification. -/
def enable_pseudo_inverse_simplification (o : Nat) : Nat :=
  o ||| PSEUDO_INVERSE_OPTION_MASK

/-- From src/src/context.h disable_pseudo_inverse_simplification. -/
def disable_pseudo_inverse_simplification (o : Nat) : Nat :=
  o &&& not32 PSEUDO_INVERSE_OPTION_MASK

/-- From src/src/context.h enable_dump. -/
def enable_dump (o : Nat) : Nat := o ||| DUMP_OPTION_MASK

/-- From src/src/context.h disable_dump. -/
def disable_dump (o : Nat) : Nat := o &&& not32 DUMP_OPTION_MASK

/-- From src/src/context.h enable_lax_mode. -/
def enable_lax_mode (o : Nat) : Nat := o ||| LAX_OPTION_MASK

/-- From src/src/context.h disable_lax_mode. -/
def disable_lax_mode (o : Nat) : Nat := o &&& not32 LAX_OPTION_MASK

/-- From src/src/context.h context_flatten_or_enabled:
`(options & FLATTENOR_OPTION_MASK) != 0`. -/
def context_flatten_or_enabled (o : Nat) : Bool :=
  (o &&& FLATTENOR_OPTION_MASK) != 0

/-- From src/src/context.h context_flatten_diseq_enabled:
`(options & FLATTENDISEQ_OPTION_MASK) != 0`. -/
def context_flatten_diseq_enabled (o : Nat) : Bool :=
  (o &&& FLATTENDISEQ_OPTION_MASK) != 0

/-- The invariant claimed for option words: diseq-flattening implies
or-flattening. -/
def FlattenImpl (o : Nat) : Prop :=
  context_flatten_diseq_enabled o = true → context_flatten_or_enabled o = true

/-- Internalization return codes from the enum in src/src/context.h. -/
def TRIVIALLY_UNSAT : Int := 1

def CTX_NO_ERROR : Int := 0

def INTERNAL_ERROR : Int := -1

def TYPE_ERROR : Int := -2

def FREE_VARIABLE_IN_FORMULA : Int := -3

def LOGIC_NOT_SUPPORTED : Int := -4

def UF_NOT_SUPPORTED : Int := -5

def ARITH_NOT_SUPPORTED : Int := -6

def BV_NOT_SUPPORTED : Int := -7

def FUN_NOT_SUPPORTED : Int := -8

def QUANTIFIERS_NOT_SUPPORTED : Int := -9

def LAMBDAS_NOT_SUPPORTED : Int := -10

def BVSOLVER_EXCEPTION : Int := -17

/-- Context status values (smt_status_t), as relevant to assertions. -/
inductive SmtStatus where
  | idle | searching | unknown | sat | unsat | interrupted
deriving DecidableEq

/-- Modelled from the spec (context.c is not in the tree): a formula,
reduced to the features the assertion pipeline distinguishes: the
constants, a variable occurrence, a conjunction, and the unsupported
constructs that make internalization fail. -/
inductive Fm where
  | tt
  | ff
  | var (n : Nat)
  | conj (a b : Fm)
  | quant (body : Fm)
  | lam (body : Fm)
  | ufApp (f : Nat)
deriving DecidableEq

/-- Modelled from the spec: internalization of a formula walks it and
extends the internalization table (a map from term to literal), or
fails with a negative error code on an unsupported construct; the
Boolean result is false when the assertion is found inconsistent. -/
def internalize_fm : List (Nat × Nat) → Fm → Except Int (List (Nat × Nat) × Bool)
  | m, Fm.tt => Except.ok (m, true)
  | m, Fm.ff => Except.ok (m, false)
  | m, Fm.var n => Except.ok ((n, 2 * n) :: m, true)
  | m, Fm.conj a b =>
      match internalize_fm m a with
      | Except.error c => Except.error c
      | Except.ok (m1, s1) =>
          match internalize_fm m1 b with
          | Except.error c => Except.error c
          | Except.ok (m2, s2) => Except.ok (m2, s1 && s2)
  | _, Fm.quant _ => Except.error QUANTIFIERS_NOT_SUPPORTED
  | _, Fm.lam _ => Except.error LAMBDAS_NOT_SUPPORTED
  | _, Fm.ufApp _ => Except.error UF_NOT_SUPPORTED

/-- Modelled from the spec: the context state visible to
assert_formula, its status and its internalization table. -/
structure Context where
  status : SmtStatus
  intern : List (Nat × Nat)
deriving DecidableEq

/-- Modelled from the spec: assert_formula internalizes f; on an
inconsistency it returns TRIVIALLY_UNSAT and sets the status to UNSAT;
on success it returns CTX_NO_ERROR; on an internalization failure it
returns the negative code and restores the internalization table to
its state before the call (no partial commit). -/
def assert_formula (ctx : Context) (f : Fm) : Int × Context :=
  match internalize_fm ctx.intern f with
  | Except.error c => (c, ctx)
  | Except.ok (m, false) => (TRIVIALLY_UNSAT, ⟨SmtStatus.unsat, m⟩)
  | Except.ok (m, true) => (CTX_NO_ERROR, ⟨ctx.status, m⟩)

end Ctx

namespace Stbl

/-- Modelled from the spec (the symbol-table implementation is not in
the tree): the symbol table, as a stack of bindings from names to term
occurrences; the most recent binding of a name hides the earlier
ones. -/
def Table := List (String × Nat)

/-- Modelled from the spec: set_name pushes a new binding; the previous
binding of the same name is hidden, not destroyed. -/
def set_name (s : Table) (name : String) (t : Nat) : Table :=
  (name, t) :: s

/-- Modelled from the spec: find returns the most recent binding of
name, if any. -/
def find : Table → String → Option Nat
  | [], _ => none
  | (n, t) :: rest, name => if n = name then some t else find rest name

/-- Modelled from the spec: remove pops the most recent binding of
name, revealing the previous one; it does nothing when the name is
unbound. -/
def remove : Table → String → Table
  | [], _ => []
  | (n, t) :: rest, name =>
      if n = name then rest else (n, t) :: remove rest name

end Stbl

namespace Front

/-- Modelled from the spec (include/yices_exit_codes.h is not in the
tree): exit codes are contract constants. -/
def YICES_EXIT_SUCCESS : Int := 0

def YICES_EXIT_USAGE : Int := 16

def YICES_EXIT_FILE_NOT_FOUND : Int := 17

def YICES_EXIT_INTERRUPTED : Int := 40

def YICES_EXIT_OUT_OF_MEMORY : Int := 48

/-- Option identifiers from optid_t in src/src/frontend/yices_smt2.c. -/
inductive OptId where
  | show_version_opt
  | show_help_opt
  | show_stats_opt
  | verbosity_opt
  | incremental_opt
  | interactive_opt
deriving DecidableEq

/-- Command-line elements as delivered by cmdline_parse_element
(the generic parser of utils/command_line.c is not in the tree; its
output elements are modelled): a positional argument, a recognized
option with its integer value when it takes one, or a parse error; the
element stream ends with cmdline_done, modelled by the end of the
list. -/
inductive CmdElem where
  | argument (arg : String)
  | option (k : OptId) (ival : Int)
  | error
deriving DecidableEq

/-- The global flags set by parse_command_line in
src/src/frontend/yices_smt2.c. -/
structure FrontState where
  filename : Option String
  incremental : Bool
  interactive : Bool
  show_stats : Bool
  verbosity : Int
deriving DecidableEq

/-- Outcome of parse_command_line: either the process exited with a
code (exit, including the success exits of --version and --help), or
parsing finished with the given flag state. -/
inductive ParseOutcome where
  | exited (code : Int)
  | parsed (s : FrontState)
deriving DecidableEq

/-- The element loop of parse_command_line, translated case by case
from src/src/frontend/yices_smt2.c lines 139-202: a second positional
argument, a negative verbosity and a command-line error exit with
YICES_EXIT_USAGE; --version and --help exit with success; at
cmdline_done, interactive is forced to false when a filename was
given. -/
def processElems : FrontState → List CmdElem → ParseOutcome
  | s, [] =>
      ParseOutcome.parsed
        { s with interactive := if s.filename.isSome then false else s.interactive }
  | s, CmdElem.argument a :: rest =>
      match s.filename with
      | none => processElems { s with filename := some a } rest
      | some _ => ParseOutcome.exited YICES_EXIT_USAGE
  | _, CmdElem.option OptId.show_version_opt _ :: _ =>
      ParseOutcome.exited YICES_EXIT_SUCCESS
  | _, CmdElem.option OptId.show_help_opt _ :: _ =>
      ParseOutcome.exited YICES_EXIT_SUCCESS
  | s, CmdElem.option OptId.show_stats_opt _ :: rest =>
      processElems { s with show_stats := true } rest
  | s, CmdElem.option OptId.verbosity_opt v :: rest =>
      if v < 0 then ParseOutcome.exited YICES_EXIT_USAGE
      else processElems { s with verbosity := v } rest
  | s, CmdElem.option OptId.incremental_opt _ :: rest =>
      processElems { s with incremental := true } rest
  | s, CmdElem.option OptId.interactive_opt _ :: rest =>
      processElems { s with interactive := true } rest
  | _, CmdElem.error :: _ => ParseOutcome.exited YICES_EXIT_USAGE

/-- Initial flag state set at the top of parse_command_line. -/
def initFrontState : FrontState :=
  ⟨none, false, false, false, 0⟩

/-- parse_command_line from src/src/frontend/yices_smt2.c. -/
def parse_command_line (elems : List CmdElem) : ParseOutcome :=
  processElems initFrontState elems

/-- The main function of src/src/frontend/yices_smt2.c, to the extent
it determines the exit code: exit YICES_EXIT_FILE_NOT_FOUND when the
input file cannot be opened; otherwise process the commands and return
YICES_EXIT_SUCCESS (canOpen models init_smt2_file_lexer succeeding). -/
def main (elems : List CmdElem) (canOpen : String → Bool) : Int :=
  match parse_command_line elems with
  | ParseOutcome.exited c => c
  | ParseOutcome.parsed s =>
      match s.filename with
      | some f =>
          if canOpen f then YICES_EXIT_SUCCESS else YICES_EXIT_FILE_NOT_FOUND
      | none => YICES_EXIT_SUCCESS

end Front

namespace Terms

theorem shiftLeft_one (i : Nat) : i <<< 1 = 2 * i := by
  rw [Nat.shiftLeft_eq]
  omega

theorem pos_term_eq (i : Nat) (h : i < 2147483648) : pos_term i = 2 * i := by
  simp only [pos_term, u32, shiftLeft_one]
  omega

theorem even_lor_one (k : Nat) : 2 * k ||| 1 = 2 * k + 1 := by
  have h : 2 * k ||| 1 = Nat.bit false k ||| Nat.bit true 0 := by
    simp [Nat.bit]
  rw [h, Nat.lor_bit]
  simp [Nat.bit]

theorem neg_term_eq (i : Nat) (h : i < 2147483648) : neg_term i = 2 * i + 1 := by
  have h2 : (i <<< 1) % u32 = 2 * i := by
    simp only [u32, shiftLeft_one]
    omega
  simp only [neg_term, h2, even_lor_one]

theorem polarity_of_eq (x : Nat) : polarity_of x = x % 2 := by
  simp only [polarity_of, Nat.and_one_is_mod]

theorem xor_one_eq (x : Nat) : x ^^^ 1 = if x % 2 = 0 then x + 1 else x - 1 := by
  have hb : Nat.bit (x.testBit 0) (x >>> 1) = x := Nat.bit_testBit_zero_shiftRight_one x
  have h1 : (1 : Nat) = Nat.bit true 0 := by simp [Nat.bit]
  have hx : x ^^^ 1 = Nat.bit (bne (x.testBit 0) true) (x >>> 1 ^^^ 0) := by
    conv_lhs => rw [h1, ← hb]
    rw [Nat.xor_bit]
  have hs : x >>> 1 = x / 2 := by
    rw [Nat.shiftRight_eq_div_pow]
  rw [hx, Nat.testBit_zero, hs]
  by_cases hpar : x % 2 = 0
  · simp [hpar, Nat.bit]
    omega
  · have hpar1 : x % 2 = 1 := by omega
    simp [hpar1, Nat.bit]
    omega

end Terms

namespace Terms

theorem index_of_opposite (t : Nat) :
    index_of (opposite_term t) = index_of t := by
  have h := xor_one_eq t
  simp only [opposite_term] at *
  rw [h]
  by_cases hp : t % 2 = 0
  · simp only [hp, if_pos, if_true, index_of, i32top]
    split_ifs <;> omega
  · simp only [hp, if_neg, if_false, index_of, i32top]
    split_ifs <;> omega

end Terms

/-- C5: negation of a term occurrence is an involution (both in the
term table and in the SAT core); for every Boolean term index i below
2^30 the two occurrences are exactly (i << 1) and (i << 1) | 1, with
polarity bits 0 and 1; the term-table constructors only produce
occurrences with low bit 0, and flipping the polarity of an occurrence
whose term is Boolean stays within the polarity convention, so every
occurrence of a non-Boolean term has low bit 0. -/
theorem claim_polarity_involution :
    (∀ t : Nat, Terms.opposite_term (Terms.opposite_term t) = t) ∧
    (∀ l : Nat, Nsat.litNot (Nsat.litNot l) = l) ∧
    (∀ i : Nat, i < 1073741824 →
      Terms.pos_term i = 2 * i ∧
      Terms.neg_term i = 2 * i + 1 ∧
      Terms.polarity_of (Terms.pos_term i) = 0 ∧
      Terms.polarity_of (Terms.neg_term i) = 1 ∧
      Terms.pos_term i ≠ Terms.neg_term i ∧
      (∀ t : Nat, t < Terms.u32 → Terms.index_of t = i →
        t = Terms.pos_term i ∨ t = Terms.neg_term i)) ∧
    (∀ (tbl : List Terms.TermData) (tau idx : Nat),
      Terms.polarity_of (Terms.constant_term tbl tau idx).1 = 0) ∧
    (∀ (tbl : List Terms.TermData) (tau : Nat),
      Terms.polarity_of (Terms.new_uninterpreted_term tbl tau).1 = 0) ∧
    (∀ (tbl : List Terms.TermData) (l r : Nat),
      Terms.polarity_of (Terms.eq_term tbl l r).1 = 0) ∧
    (∀ (tbl : List Terms.TermData) (args : List Nat),
      Terms.polarity_of (Terms.or_term tbl args).1 = 0) ∧
    (∀ (tbl : List Terms.TermData) (t : Nat),
      Terms.polarity_of t = 0 → Terms.occPolarityOk tbl t) ∧
    (∀ (tbl : List Terms.TermData) (t : Nat),
      (Terms.index_of t < tbl.length →
        Terms.is_boolean_type
          (tbl.getD (Terms.index_of t)
            ⟨Terms.TermKind.unused, 0, []⟩).typ = true) →
      Terms.occPolarityOk tbl (Terms.opposite_term t)) := by
  have hpolpos : ∀ i : Nat, Terms.polarity_of (Terms.pos_term i) = 0 := by
    intro i
    rw [Terms.polarity_of_eq]
    simp only [Terms.pos_term, Terms.u32, Terms.shiftLeft_one]
    omega
  refine ⟨?_, ?_, ?_, ?_, ?_, ?_, ?_, ?_, ?_⟩
  · intro t
    exact Nat.xor_cancel_right 1 t
  · intro l
    exact Nat.xor_cancel_right 1 l
  · intro i hi
    have hpos := Terms.pos_term_eq i (by omega)
    have hneg := Terms.neg_term_eq i (by omega)
    refine ⟨hpos, hneg, hpolpos i, ?_, ?_, ?_⟩
    · rw [Terms.polarity_of_eq, hneg]
      omega
    · rw [hpos, hneg]
      omega
    · intro t ht hidx
      rw [hpos, hneg]
      simp only [Terms.index_of, Terms.i32top] at hidx
      split_ifs at hidx <;> omega
  · intro tbl tau idx
    exact hpolpos _
  · intro tbl tau
    exact hpolpos _
  · intro tbl l r
    exact hpolpos _
  · intro tbl args
    exact hpolpos _
  · intro tbl t h0
    intro h1
    rw [h0] at h1
    exact absurd h1 (by omega)
  · intro tbl t hb
    intro _
    rw [Terms.index_of_opposite]
    exact hb

/-- C5 witness: the polarity facts instantiated at term index 3, and
the polarity convention for the negation of the Boolean constant
(occurrence 2) in the initial term table. -/
theorem claim_polarity_involution_witness :
    (3 < 1073741824 ∧
      (Terms.pos_term 3 = 2 * 3 ∧
       Terms.neg_term 3 = 2 * 3 + 1 ∧
       Terms.polarity_of (Terms.pos_term 3) = 0 ∧
       Terms.polarity_of (Terms.neg_term 3) = 1 ∧
       Terms.pos_term 3 ≠ Terms.neg_term 3 ∧
       (∀ t : Nat, t < Terms.u32 → Terms.index_of t = 3 →
         t = Terms.pos_term 3 ∨ t = Terms.neg_term 3))) ∧
    Terms.occPolarityOk Terms.init_term_table
      (Terms.opposite_term Terms.true_term) :=
  ⟨⟨by decide, claim_polarity_involution.2.2.1 3 (by decide)⟩,
    claim_polarity_involution.2.2.2.2.2.2.2.2 Terms.init_term_table
      Terms.true_term (by decide)⟩

/-- C7 counterexample: the index 2^30 is representable in 31 bits, yet
pos_term maps it onto the sign bit: the occurrence is invalid and
index_of does not recover the index, so the packing does not give a
31-bit index. -/
theorem claim_occurrence_packing_ce :
    1073741824 < 2147483648 ∧
    Terms.validOcc (Terms.pos_term 1073741824) = false ∧
    Terms.index_of (Terms.pos_term 1073741824) ≠ 1073741824 := by
  decide

/-- C7 (amended): a term occurrence packs a term index representable
in 30 bits (bits 30 ... 1, the sign bit staying 0) with a 1-bit
polarity: for every i below 2^30, pos_term i and neg_term i are valid
occurrences and index_of and polarity_of recover the index and the
polarity bit. -/
theorem claim_occurrence_packing :
    ∀ i : Nat, i < 1073741824 →
      Terms.validOcc (Terms.pos_term i) = true ∧
      Terms.validOcc (Terms.neg_term i) = true ∧
      Terms.index_of (Terms.pos_term i) = i ∧
      Terms.polarity_of (Terms.pos_term i) = 0 ∧
      Terms.index_of (Terms.neg_term i) = i ∧
      Terms.polarity_of (Terms.neg_term i) = 1 := by
  intro i hi
  have hpos := Terms.pos_term_eq i (by omega)
  have hneg := Terms.neg_term_eq i (by omega)
  rw [hpos, hneg]
  refine ⟨?_, ?_, ?_, ?_, ?_, ?_⟩
  · simp only [Terms.validOcc, Terms.i32top, decide_eq_true_eq]
    omega
  · simp only [Terms.validOcc, Terms.i32top, decide_eq_true_eq]
    omega
  · simp only [Terms.index_of, Terms.i32top]
    split_ifs <;> omega
  · rw [Terms.polarity_of_eq]
    omega
  · simp only [Terms.index_of, Terms.i32top]
    split_ifs <;> omega
  · rw [Terms.polarity_of_eq]
    omega

/-- C7 witness: the amended packing facts at index 7. -/
theorem claim_occurrence_packing_witness :
    7 < 1073741824 ∧
    (Terms.validOcc (Terms.pos_term 7) = true ∧
     Terms.validOcc (Terms.neg_term 7) = true ∧
     Terms.index_of (Terms.pos_term 7) = 7 ∧
     Terms.polarity_of (Terms.pos_term 7) = 0 ∧
     Terms.index_of (Terms.neg_term 7) = 7 ∧
     Terms.polarity_of (Terms.neg_term 7) = 1) :=
  ⟨by decide, claim_occurrence_packing 7 (by decide)⟩

/-- C8: rebinding a name hides but does not destroy the previous
binding, removal reveals it, and remove pops exactly the most recent
binding of the name. -/
theorem claim_symbol_table_shadowing :
    ∀ (s : Stbl.Table) (name : String) (t1 t2 : Nat),
      Stbl.find (Stbl.set_name (Stbl.set_name s name t1) name t2) name
          = some t2 ∧
      Stbl.find
          (Stbl.remove (Stbl.set_name (Stbl.set_name s name t1) name t2) name)
          name = some t1 ∧
      Stbl.remove (Stbl.set_name s name t1) name = s := by
  intro s name t1 t2
  refine ⟨?_, ?_, ?_⟩ <;> simp [Stbl.set_name, Stbl.find, Stbl.remove]

theorem lookupIdx_append_self (l : List Terms.TermData) (d : Terms.TermData)
    (h : Terms.lookupIdx l d = none) :
    Terms.lookupIdx (l ++ [d]) d = some l.length := by
  induction l with
  | nil => simp [Terms.lookupIdx]
  | cons x xs ih =>
    simp only [Terms.lookupIdx] at h
    by_cases hx : x = d
    · rw [if_pos hx] at h
      cases h
    · rw [if_neg hx] at h
      have h3 : Terms.lookupIdx xs d = none := by
        cases hxs : Terms.lookupIdx xs d with
        | none => rfl
        | some j => rw [hxs] at h; cases h
      simp [List.cons_append, Terms.lookupIdx, hx, ih h3]

theorem hashcons_idem (tbl : List Terms.TermData) (d : Terms.TermData) :
    Terms.hashcons (Terms.hashcons tbl d).2 d = Terms.hashcons tbl d := by
  cases h : Terms.lookupIdx tbl d with
  | some i => simp [Terms.hashcons, h]
  | none =>
    have h2 := lookupIdx_append_self tbl d h
    simp [Terms.hashcons, h, h2]

theorem new_uninterpreted_fresh (tbl : List Terms.TermData) (tau : Nat) :
    (Terms.new_uninterpreted_term
        (Terms.new_uninterpreted_term tbl tau).2 tau).1
      ≠ (Terms.new_uninterpreted_term tbl tau).1 := by
  intro hcon
  simp only [Terms.new_uninterpreted_term, Terms.pos_term, Terms.u32,
    Terms.shiftLeft_one, List.length_append, List.length_cons,
    List.length_nil] at hcon
  omega

/-- C1 counterexample: two successive calls to new_uninterpreted_term
with structurally equal arguments (the same type, on the same table)
return different term occurrences, so hash consing does not extend to
new_uninterpreted_term. -/
theorem claim_hash_consing_ce :
    (Terms.new_uninterpreted_term
        (Terms.new_uninterpreted_term Terms.init_term_table 1).2 1).1
      ≠ (Terms.new_uninterpreted_term Terms.init_term_table 1).1 := by
  decide

/-- C1 (amended): for any two calls to the same hash-consing
constructor of the term table with structurally equal arguments, the
returned term indices (and tables) are identical; this holds for every
constructor that hash-conses, but not for new_uninterpreted_term,
which always returns a fresh term. -/
theorem claim_hash_consing :
    (∀ (tbl : List Terms.TermData) (d : Terms.TermData),
      Terms.hashcons (Terms.hashcons tbl d).2 d = Terms.hashcons tbl d) ∧
    (∀ (tbl : List Terms.TermData) (tau idx : Nat),
      Terms.constant_term (Terms.constant_term tbl tau idx).2 tau idx
        = Terms.constant_term tbl tau idx) ∧
    (∀ (tbl : List Terms.TermData) (l r : Nat),
      Terms.eq_term (Terms.eq_term tbl l r).2 l r = Terms.eq_term tbl l r) ∧
    (∀ (tbl : List Terms.TermData) (args : List Nat),
      Terms.or_term (Terms.or_term tbl args).2 args
        = Terms.or_term tbl args) ∧
    (∀ (tbl : List Terms.TermData) (tau c l r : Nat),
      Terms.ite_term (Terms.ite_term tbl tau c l r).2 tau c l r
        = Terms.ite_term tbl tau c l r) ∧
    (∀ (tbl : List Terms.TermData) (tau : Nat),
      (Terms.new_uninterpreted_term
          (Terms.new_uninterpreted_term tbl tau).2 tau).1
        ≠ (Terms.new_uninterpreted_term tbl tau).1) := by
  refine ⟨hashcons_idem, ?_, ?_, ?_, ?_, new_uninterpreted_fresh⟩
  · intro tbl tau idx
    simp only [Terms.constant_term, hashcons_idem]
  · intro tbl l r
    simp only [Terms.eq_term, hashcons_idem]
  · intro tbl args
    simp only [Terms.or_term, hashcons_idem]
  · intro tbl tau c l r
    simp only [Terms.ite_term, hashcons_idem]

namespace Ctx

theorem or_testBit_preserve (o m k : Nat) (hm : m.testBit k = false) :
    (o ||| m).testBit k = o.testBit k := by
  rw [Nat.testBit_lor, hm, Bool.or_false]

theorem and_testBit_preserve (o c k : Nat) (hc : c.testBit k = true) :
    (o &&& c).testBit k = o.testBit k := by
  rw [Nat.testBit_land, hc, Bool.and_true]

theorem or_testBit_set (o m k : Nat) (hm : m.testBit k = true) :
    (o ||| m).testBit k = true := by
  rw [Nat.testBit_lor, hm, Bool.or_true]

theorem and_testBit_clear (o c k : Nat) (hc : c.testBit k = false) :
    (o &&& c).testBit k = false := by
  rw [Nat.testBit_land, hc, Bool.and_false]

theorem and_two_pow_ne (o k : Nat) : ((o &&& 2 ^ k) != 0) = o.testBit k := by
  have hpos : 0 < 2 ^ k := Nat.two_pow_pos k
  rw [Nat.and_two_pow]
  cases h : o.testBit k
  · simp
  · simp only [Bool.toNat_true, one_mul]
    simp only [bne_iff_ne, ne_eq]
    omega

end Ctx

namespace Ctx

theorem diseq_enabled_testBit (o : Nat) :
    context_flatten_diseq_enabled o = o.testBit 6 := by
  have hm : FLATTENDISEQ_OPTION_MASK = 2 ^ 6 := by decide
  rw [context_flatten_diseq_enabled, hm, and_two_pow_ne]

theorem or_enabled_testBit (o : Nat) :
    context_flatten_or_enabled o = o.testBit 5 := by
  have hm : FLATTENOR_OPTION_MASK = 2 ^ 5 := by decide
  rw [context_flatten_or_enabled, hm, and_two_pow_ne]

theorem flattenImpl_iff (o : Nat) :
    FlattenImpl o ↔ (o.testBit 6 = true → o.testBit 5 = true) := by
  unfold FlattenImpl
  rw [diseq_enabled_testBit, or_enabled_testBit]

theorem flattenImpl_or (o m : Nat) (h5 : m.testBit 5 = false)
    (h6 : m.testBit 6 = false) (h : FlattenImpl o) :
    FlattenImpl (o ||| m) := by
  rw [flattenImpl_iff] at h ⊢
  rw [or_testBit_preserve o m 5 h5, or_testBit_preserve o m 6 h6]
  exact h

theorem flattenImpl_and (o c : Nat) (h5 : c.testBit 5 = true)
    (h6 : c.testBit 6 = true) (h : FlattenImpl o) :
    FlattenImpl (o &&& c) := by
  rw [flattenImpl_iff] at h ⊢
  rw [and_testBit_preserve o c 5 h5, and_testBit_preserve o c 6 h6]
  exact h

theorem flattenImpl_or_sets (o m : Nat) (h5 : m.testBit 5 = true) :
    FlattenImpl (o ||| m) := by
  rw [flattenImpl_iff]
  intro _
  exact or_testBit_set o m 5 h5

theorem flattenImpl_and_clears (o c : Nat) (h6 : c.testBit 6 = false) :
    FlattenImpl (o &&& c) := by
  rw [flattenImpl_iff]
  intro hcon
  rw [and_testBit_clear o c 6 h6] at hcon
  cases hcon

end Ctx

/-- C6 counterexample: starting from a context option word where both
flattening bits are set by enable_diseq_and_or_flattening,
disable_or_flattening clears only the or-flattening bit, leaving
diseq-flattening enabled without or-flattening, so the implication is
not preserved by disable_or_flattening. -/
theorem claim_flatten_options_ce :
    Ctx.FlattenImpl (Ctx.enable_diseq_and_or_flattening 0) ∧
    ¬ Ctx.FlattenImpl
        (Ctx.disable_or_flattening (Ctx.enable_diseq_and_or_flattening 0)) := by
  constructor
  · intro _
    decide
  · intro h
    exact absurd (h (by decide)) (by decide)

/-- C6 (amended): the implication "diseq-flattening enabled implies
or-flattening enabled" is established by enable_diseq_and_or_flattening
and preserved by every option-setting and option-clearing operation of
the context except disable_or_flattening, which clears only the
or-flattening bit and can leave the implication violated. -/
theorem claim_flatten_options_impl :
    ∀ o : Nat, Ctx.FlattenImpl o →
      Ctx.FlattenImpl (Ctx.enable_variable_elimination o) ∧
      Ctx.FlattenImpl (Ctx.disable_variable_elimination o) ∧
      Ctx.FlattenImpl (Ctx.enable_or_flattening o) ∧
      Ctx.FlattenImpl (Ctx.enable_diseq_and_or_flattening o) ∧
      Ctx.FlattenImpl (Ctx.disable_diseq_and_or_flattening o) ∧
      Ctx.FlattenImpl (Ctx.enable_eq_abstraction o) ∧
      Ctx.FlattenImpl (Ctx.disable_eq_abstraction o) ∧
      Ctx.FlattenImpl (Ctx.enable_arith_elimination o) ∧
      Ctx.FlattenImpl (Ctx.disable_arith_elimination o) ∧
      Ctx.FlattenImpl (Ctx.enable_keep_ite o) ∧
      Ctx.FlattenImpl (Ctx.disable_keep_ite o) ∧
      Ctx.FlattenImpl (Ctx.enable_bvarith_elimination o) ∧
      Ctx.FlattenImpl (Ctx.disable_bvarith_elimination o) ∧
      Ctx.FlattenImpl (Ctx.enable_symmetry_breaking o) ∧
      Ctx.FlattenImpl (Ctx.disable_symmetry_breaking o) ∧
      Ctx.FlattenImpl (Ctx.enable_pseudo_inverse_simplification o) ∧
      Ctx.FlattenImpl (Ctx.disable_pseudo_inverse_simplification o) ∧
      Ctx.FlattenImpl (Ctx.enable_dump o) ∧
      Ctx.FlattenImpl (Ctx.disable_dump o) ∧
      Ctx.FlattenImpl (Ctx.enable_lax_mode o) ∧
      Ctx.FlattenImpl (Ctx.disable_lax_mode o) := by
  intro o h
  refine ⟨?_, ?_, ?_, ?_, ?_, ?_, ?_, ?_, ?_, ?_, ?_, ?_, ?_, ?_, ?_, ?_,
    ?_, ?_, ?_, ?_, ?_⟩
  · exact Ctx.flattenImpl_or o _ (by decide) (by decide) h
  · exact Ctx.flattenImpl_and o _ (by decide) (by decide) h
  · exact Ctx.flattenImpl_or_sets o _ (by decide)
  · exact Ctx.flattenImpl_or_sets o _ (by decide)
  · exact Ctx.flattenImpl_and_clears o _ (by decide)
  · exact Ctx.flattenImpl_or o _ (by decide) (by decide) h
  · exact Ctx.flattenImpl_and o _ (by decide) (by decide) h
  · exact Ctx.flattenImpl_or o _ (by decide) (by decide) h
  · exact Ctx.flattenImpl_and o _ (by decide) (by decide) h
  · exact Ctx.flattenImpl_or o _ (by decide) (by decide) h
  · exact Ctx.flattenImpl_and o _ (by decide) (by decide) h
  · exact Ctx.flattenImpl_or o _ (by decide) (by decide) h
  · exact Ctx.flattenImpl_and o _ (by decide) (by decide) h
  · exact Ctx.flattenImpl_or o _ (by decide) (by decide) h
  · exact Ctx.flattenImpl_and o _ (by decide) (by decide) h
  · exact Ctx.flattenImpl_or o _ (by decide) (by decide) h
  · exact Ctx.flattenImpl_and o _ (by decide) (by decide) h
  · exact Ctx.flattenImpl_or o _ (by decide) (by decide) h
  · exact Ctx.flattenImpl_and o _ (by decide) (by decide) h
  · exact Ctx.flattenImpl_or o _ (by decide) (by decide) h
  · exact Ctx.flattenImpl_and o _ (by decide) (by decide) h

/-- C6 witness: the preservation facts instantiated at the option word
with both flattening bits enabled. -/
theorem claim_flatten_options_impl_witness :
    Ctx.FlattenImpl 96 ∧
    Ctx.FlattenImpl (Ctx.disable_diseq_and_or_flattening 96) :=
  ⟨fun _ => by decide,
    (claim_flatten_options_impl 96 (fun _ => by decide)).2.2.2.2.1⟩

theorem processElems_file_not_interactive
    (elems : List Front.CmdElem) :
    ∀ (s s1 : Front.FrontState),
      Front.processElems s elems = Front.ParseOutcome.parsed s1 →
      s1.filename.isSome = true → s1.interactive = false := by
  induction elems with
  | nil =>
    intro s s1 h hf
    simp only [Front.processElems, Front.ParseOutcome.parsed.injEq] at h
    subst h
    cases hsf : s.filename with
    | none =>
      rw [hsf] at hf
      cases hf
    | some f => simp [hsf]
  | cons e rest ih =>
    intro s s1 h hf
    cases e with
    | argument a =>
      cases hsf : s.filename with
      | none =>
        rw [show Front.processElems s (Front.CmdElem.argument a :: rest)
              = Front.processElems { s with filename := some a } rest from by
            simp [Front.processElems, hsf]] at h
        exact ih _ _ h hf
      | some f =>
        rw [show Front.processElems s (Front.CmdElem.argument a :: rest)
              = Front.ParseOutcome.exited Front.YICES_EXIT_USAGE from by
            simp [Front.processElems, hsf]] at h
        cases h
    | option k v =>
      cases k with
      | show_version_opt => simp [Front.processElems] at h
      | show_help_opt => simp [Front.processElems] at h
      | show_stats_opt =>
        simp only [Front.processElems] at h
        exact ih _ _ h hf
      | verbosity_opt =>
        simp only [Front.processElems] at h
        by_cases hv : v < 0
        · rw [if_pos hv] at h
          cases h
        · rw [if_neg hv] at h
          exact ih _ _ h hf
      | incremental_opt =>
        simp only [Front.processElems] at h
        exact ih _ _ h hf
      | interactive_opt =>
        simp only [Front.processElems] at h
        exact ih _ _ h hf
    | error => simp [Front.processElems] at h

/-- C10: after parse_command_line finishes normally, whenever a
filename was supplied on the command line the interactive flag is
false, even when the interactive option was given: interactive mode is
silently ignored when input comes from a file. -/
theorem claim_interactive_ignored_with_file :
    ∀ (elems : List Front.CmdElem) (s : Front.FrontState),
      Front.parse_command_line elems = Front.ParseOutcome.parsed s →
      s.filename.isSome = true → s.interactive = false := by
  intro elems s h hf
  exact processElems_file_not_interactive elems _ s h hf

/-- C10 witness: the interactive option followed by a filename yields a
parsed state whose interactive flag is false. -/
theorem claim_interactive_ignored_with_file_witness :
    Front.parse_command_line
        [Front.CmdElem.option Front.OptId.interactive_opt 0,
         Front.CmdElem.argument "f"]
      = Front.ParseOutcome.parsed ⟨some "f", false, false, false, 0⟩ ∧
    (⟨some "f", false, false, false, 0⟩ : Front.FrontState).interactive
      = false :=
  ⟨by decide,
    claim_interactive_ignored_with_file
      [Front.CmdElem.option Front.OptId.interactive_opt 0,
       Front.CmdElem.argument "f"]
      ⟨some "f", false, false, false, 0⟩ (by decide) (by decide)⟩

/-- C9: the CLI accepts at most one positional argument: a second
positional argument, a negative verbosity value and an unrecognized
option exit with the usage-error code 16; a filename that cannot be
opened exits with the file-not-found code 17; when all commands are
processed normally main returns the success code 0. -/
theorem claim_cli_exit_codes :
    (∀ (s : Front.FrontState) (a : String) (rest : List Front.CmdElem),
      s.filename.isSome = true →
      Front.processElems s (Front.CmdElem.argument a :: rest)
        = Front.ParseOutcome.exited Front.YICES_EXIT_USAGE) ∧
    (∀ (s : Front.FrontState) (v : Int) (rest : List Front.CmdElem),
      v < 0 →
      Front.processElems s
          (Front.CmdElem.option Front.OptId.verbosity_opt v :: rest)
        = Front.ParseOutcome.exited Front.YICES_EXIT_USAGE) ∧
    (∀ (s : Front.FrontState) (rest : List Front.CmdElem),
      Front.processElems s (Front.CmdElem.error :: rest)
        = Front.ParseOutcome.exited Front.YICES_EXIT_USAGE) ∧
    (∀ (elems : List Front.CmdElem) (canOpen : String → Bool)
        (s : Front.FrontState) (f : String),
      Front.parse_command_line elems = Front.ParseOutcome.parsed s →
      s.filename = some f → canOpen f = false →
      Front.main elems canOpen = Front.YICES_EXIT_FILE_NOT_FOUND) ∧
    (∀ (elems : List Front.CmdElem) (canOpen : String → Bool)
        (s : Front.FrontState),
      Front.parse_command_line elems = Front.ParseOutcome.parsed s →
      (∀ f, s.filename = some f → canOpen f = true) →
      Front.main elems canOpen = Front.YICES_EXIT_SUCCESS) := by
  refine ⟨?_, ?_, ?_, ?_, ?_⟩
  · intro s a rest hf
    cases hsf : s.filename with
    | none =>
      rw [hsf] at hf
      cases hf
    | some f => simp [Front.processElems, hsf]
  · intro s v rest hv
    simp [Front.processElems, hv]
  · intro s rest
    simp [Front.processElems]
  · intro elems canOpen s f hp hf hc
    simp [Front.main, hp, hf, hc]
  · intro elems canOpen s hp hall
    cases hsf : s.filename with
    | none => simp [Front.main, hp, hsf]
    | some f => simp [Front.main, hp, hsf, hall f hsf]

/-- C9 witness: the exit codes observed on concrete command lines: a
second positional argument, a negative verbosity, an unrecognized
option, an unopenable file and a normal run. -/
theorem claim_cli_exit_codes_witness :
    Front.processElems ⟨some "a", false, false, false, 0⟩
        [Front.CmdElem.argument "b"]
      = Front.ParseOutcome.exited 16 ∧
    Front.processElems Front.initFrontState
        [Front.CmdElem.option Front.OptId.verbosity_opt (-1)]
      = Front.ParseOutcome.exited 16 ∧
    Front.processElems Front.initFrontState [Front.CmdElem.error]
      = Front.ParseOutcome.exited 16 ∧
    Front.main [Front.CmdElem.argument "f"] (fun _ => false) = 17 ∧
    Front.main [] (fun _ => true) = 0 :=
  ⟨claim_cli_exit_codes.1 ⟨some "a", false, false, false, 0⟩ "b" [] (by decide),
   claim_cli_exit_codes.2.1 Front.initFrontState (-1) [] (by decide),
   claim_cli_exit_codes.2.2.1 Front.initFrontState [],
   claim_cli_exit_codes.2.2.2.1 [Front.CmdElem.argument "f"] (fun _ => false)
     ⟨some "f", false, false, false, 0⟩ "f" (by decide) (by decide) (by decide),
   claim_cli_exit_codes.2.2.2.2 [] (fun _ => true)
     ⟨none, false, false, false, 0⟩ (by decide)
     (fun f h => by cases h)⟩

theorem internalize_error_neg (f : Ctx.Fm) :
    ∀ (m : List (Nat × Nat)) (c : Int),
      Ctx.internalize_fm m f = Except.error c → c < 0 := by
  induction f with
  | tt =>
    intro m c h
    cases h
  | ff =>
    intro m c h
    cases h
  | var n =>
    intro m c h
    cases h
  | conj a b iha ihb =>
    intro m c h
    simp only [Ctx.internalize_fm] at h
    cases ha : Ctx.internalize_fm m a with
    | error c1 =>
      rw [ha] at h
      cases h
      exact iha m c ha
    | ok pr =>
      obtain ⟨m1, s1⟩ := pr
      rw [ha] at h
      dsimp only at h
      cases hb : Ctx.internalize_fm m1 b with
      | error c2 =>
        rw [hb] at h
        cases h
        exact ihb m1 c hb
      | ok pr2 =>
        obtain ⟨m2, s2⟩ := pr2
        rw [hb] at h
        cases h
  | quant body ih =>
    intro m c h
    cases h
    decide
  | lam body ih =>
    intro m c h
    cases h
    decide
  | ufApp fn =>
    intro m c h
    cases h
    decide

/-- C2: on a context in IDLE status, assert_formula returns
TRIVIALLY_UNSAT (a positive code) with the context status set to UNSAT
when an inconsistency is detected, CTX_NO_ERROR (zero) when
internalization succeeds, and a strictly negative code on every
internalization failure; whenever the code is negative the context,
and in particular its internalization table, is exactly as before the
call (no partial commit). -/
theorem claim_assert_formula_codes :
    (0 : Int) < Ctx.TRIVIALLY_UNSAT ∧ Ctx.CTX_NO_ERROR = 0 ∧
    ∀ (ctx : Ctx.Context) (f : Ctx.Fm),
      ctx.status = Ctx.SmtStatus.idle →
      ((Ctx.assert_formula ctx f).1 = Ctx.TRIVIALLY_UNSAT ∧
        (Ctx.assert_formula ctx f).2.status = Ctx.SmtStatus.unsat) ∨
      (Ctx.assert_formula ctx f).1 = Ctx.CTX_NO_ERROR ∨
      ((Ctx.assert_formula ctx f).1 < 0 ∧
        (Ctx.assert_formula ctx f).2.intern = ctx.intern ∧
        (Ctx.assert_formula ctx f).2 = ctx) := by
  refine ⟨by decide, rfl, ?_⟩
  intro ctx f hidle
  cases h : Ctx.internalize_fm ctx.intern f with
  | error c =>
    right; right
    refine ⟨?_, ?_, ?_⟩
    · simp only [Ctx.assert_formula, h]
      exact internalize_error_neg f ctx.intern c h
    · simp [Ctx.assert_formula, h]
    · simp [Ctx.assert_formula, h]
  | ok pr =>
    obtain ⟨m, s⟩ := pr
    cases s with
    | false =>
      left
      constructor <;> simp [Ctx.assert_formula, h]
    | true =>
      right; left
      simp [Ctx.assert_formula, h]

/-- C2 witness: asserting an unsupported uninterpreted-function
application on an idle context with an empty internalization table
yields the classified outcome; the negative-code branch leaves the
context unchanged. -/
theorem claim_assert_formula_codes_witness :
    (⟨Ctx.SmtStatus.idle, []⟩ : Ctx.Context).status = Ctx.SmtStatus.idle ∧
    (((Ctx.assert_formula ⟨Ctx.SmtStatus.idle, []⟩ (Ctx.Fm.ufApp 0)).1
          = Ctx.TRIVIALLY_UNSAT ∧
        (Ctx.assert_formula ⟨Ctx.SmtStatus.idle, []⟩
            (Ctx.Fm.ufApp 0)).2.status = Ctx.SmtStatus.unsat) ∨
      (Ctx.assert_formula ⟨Ctx.SmtStatus.idle, []⟩ (Ctx.Fm.ufApp 0)).1
          = Ctx.CTX_NO_ERROR ∨
      ((Ctx.assert_formula ⟨Ctx.SmtStatus.idle, []⟩ (Ctx.Fm.ufApp 0)).1 < 0 ∧
        (Ctx.assert_formula ⟨Ctx.SmtStatus.idle, []⟩
            (Ctx.Fm.ufApp 0)).2.intern = [] ∧
        (Ctx.assert_formula ⟨Ctx.SmtStatus.idle, []⟩ (Ctx.Fm.ufApp 0)).2
          = ⟨Ctx.SmtStatus.idle, []⟩)) :=
  ⟨rfl, claim_assert_formula_codes.2.2 ⟨Ctx.SmtStatus.idle, []⟩
    (Ctx.Fm.ufApp 0) rfl⟩

/-- C4: every record in a reachable watch vector is either a clause
index with its two low-order bits zero, standing for a clause of
length at least 3 watching the literal, or (other_lit << 1) | 1 with
low bit one for a binary clause; the low bit discriminates the two
forms and the other literal is recovered by shifting right by one. -/
theorem claim_watch_records :
    ∀ (isWatchedClause : Nat → Prop) (w : List Nat) (r : Nat),
      Watch.Reach isWatchedClause w → r ∈ w →
      (r % 2 = 0 ∧ r % 4 = 0 ∧ isWatchedClause r) ∨
      (r % 2 = 1 ∧ ∃ other, r = 2 * other + 1 ∧
        Watch.recOtherLit r = other) := by
  intro P w r hreach
  induction hreach with
  | nil =>
    intro hmem
    cases hmem
  | addClauseRec w cidx hr hmod hP ih =>
    intro hmem
    rw [List.mem_append] at hmem
    cases hmem with
    | inl hm => exact ih hm
    | inr hm =>
      rw [List.mem_singleton] at hm
      subst hm
      left
      exact ⟨by omega, hmod, hP⟩
  | addBinaryRec w other hr ih =>
    intro hmem
    rw [List.mem_append] at hmem
    cases hmem with
    | inl hm => exact ih hm
    | inr hm =>
      rw [List.mem_singleton] at hm
      subst hm
      right
      refine ⟨by omega, other, rfl, ?_⟩
      have hs : (2 * other + 1) >>> 1 = (2 * other + 1) / 2 := by
        rw [Nat.shiftRight_eq_div_pow]
      simp only [Watch.recOtherLit, hs]
      omega

/-- C4 witness: in the watch vector holding the clause record 8 and
the binary record (5 << 1) | 1 = 11, the record 11 is classified as a
binary record with other literal 5. -/
theorem claim_watch_records_witness :
    (11 % 2 = 0 ∧ 11 % 4 = 0 ∧ 11 = 8) ∨
    (11 % 2 = 1 ∧ ∃ other, 11 = 2 * other + 1 ∧
      Watch.recOtherLit 11 = other) :=
  claim_watch_records (fun c => c = 8) [8, 11] 11
    (Watch.Reach.addBinaryRec [8] 5
      (Watch.Reach.addClauseRec [] 8 Watch.Reach.nil (by decide) rfl))
    (by decide)

namespace Pool

theorem round4_ge (n : Nat) : n ≤ round4 n := by
  unfold round4
  omega

theorem round4_mod (n : Nat) : round4 n % 4 = 0 := by
  unfold round4
  omega

theorem words_length (b : Block) (h : b.wf) : b.words.length = b.bsize := by
  cases b with
  | clause aux lits =>
    simp only [Block.wf] at h
    simp only [Block.words, Block.bsize, List.length_cons,
      List.length_append, List.length_replicate]
    have := round4_ge (lits.length + 2)
    omega
  | padding len =>
    simp only [Block.wf] at h
    simp only [Block.words, Block.bsize, List.length_cons,
      List.length_replicate]
    omega

theorem bsize_mod4 (b : Block) (h : b.wf) : b.bsize % 4 = 0 := by
  cases b with
  | clause aux lits =>
    simp only [Block.bsize]
    exact round4_mod _
  | padding len =>
    simp only [Block.wf] at h
    simp only [Block.bsize]
    exact h.1

theorem bsize_ge4 (b : Block) (h : b.wf) : 4 ≤ b.bsize := by
  cases b with
  | clause aux lits =>
    simp only [Block.wf] at h
    simp only [Block.bsize]
    have := round4_ge (lits.length + 2)
    omega
  | padding len =>
    simp only [Block.wf] at h
    simp only [Block.bsize]
    exact h.2

theorem blocksSize_cons (b : Block) (bs : List Block) :
    blocksSize (b :: bs) = b.bsize + blocksSize bs := by
  simp [blocksSize]

theorem blocksSize_append (a b : List Block) :
    blocksSize (a ++ b) = blocksSize a + blocksSize b := by
  simp [blocksSize]

theorem blocksSize_mod4 (bs : List Block) (h : blocksWF bs) :
    blocksSize bs % 4 = 0 := by
  induction bs with
  | nil => rfl
  | cons b rest ih =>
    rw [blocksSize_cons]
    have h1 := bsize_mod4 b (h b (List.mem_cons_self b rest))
    have h2 := ih (fun x hx => h x (List.mem_cons_of_mem b hx))
    omega

theorem deleteBlock_wf (bs : List Block) (i : Nat) (h : blocksWF bs) :
    blocksWF (deleteBlock bs i) := by
  induction bs generalizing i with
  | nil => exact h
  | cons b rest ih =>
    cases i with
    | zero =>
      intro x hx
      cases hx with
      | head =>
        have hb := h b (List.mem_cons_self b rest)
        simp only [padBlock, Block.wf]
        exact ⟨bsize_mod4 b hb, bsize_ge4 b hb⟩
      | tail _ hm => exact h x (List.mem_cons_of_mem b hm)
    | succ j =>
      intro x hx
      cases hx with
      | head => exact h b (List.mem_cons_self b rest)
      | tail _ hm =>
        exact ih j (fun y hy => h y (List.mem_cons_of_mem b hy)) x hm

theorem deleteBlock_size (bs : List Block) (i : Nat) :
    blocksSize (deleteBlock bs i) = blocksSize bs := by
  induction bs generalizing i with
  | nil => rfl
  | cons b rest ih =>
    cases i with
    | zero =>
      rw [deleteBlock, blocksSize_cons, blocksSize_cons]
      simp [padBlock, Block.bsize]
    | succ j =>
      rw [deleteBlock, blocksSize_cons, blocksSize_cons, ih j]

theorem shrinkBlock1_wf (b : Block) (m : Nat) (hb : b.wf) (hm : 2 ≤ m) :
    blocksWF (shrinkBlock1 b m) := by
  cases b with
  | clause aux lits =>
    simp only [Block.wf] at hb
    intro x hx
    simp only [shrinkBlock1] at hx
    by_cases hrest : round4 (lits.length + 2) - round4 (m + 2) = 0
    · rw [if_pos hrest] at hx
      cases hx with
      | head =>
        simp only [Block.wf, List.length_take]
        omega
      | tail _ hm2 => cases hm2
    · rw [if_neg hrest] at hx
      cases hx with
      | head =>
        simp only [Block.wf, List.length_take]
        omega
      | tail _ hm2 =>
        cases hm2 with
        | head =>
          simp only [Block.wf]
          unfold round4 at hrest ⊢
          omega
        | tail _ hm3 => cases hm3
  | padding len =>
    intro x hx
    cases hx with
    | head => exact hb
    | tail _ hm2 => cases hm2

theorem shrinkBlock1_size (b : Block) (m : Nat) (hm : 2 ≤ m) :
    blocksSize (shrinkBlock1 b m) = b.bsize := by
  cases b with
  | clause aux lits =>
    simp only [shrinkBlock1]
    by_cases hrest : round4 (lits.length + 2) - round4 (m + 2) = 0
    · rw [if_pos hrest]
      simp only [blocksSize, List.map_cons, List.map_nil, List.sum_cons,
        List.sum_nil, Block.bsize, List.length_take]
      unfold round4 at hrest ⊢
      omega
    · rw [if_neg hrest]
      simp only [blocksSize, List.map_cons, List.map_nil, List.sum_cons,
        List.sum_nil, Block.bsize, List.length_take]
      unfold round4 at hrest ⊢
      omega
  | padding len =>
    simp [shrinkBlock1, blocksSize, Block.bsize]

theorem shrinkBlock_wf (bs : List Block) (i m : Nat) (h : blocksWF bs)
    (hm : 2 ≤ m) : blocksWF (shrinkBlock bs i m) := by
  induction bs generalizing i with
  | nil => exact h
  | cons b rest ih =>
    cases i with
    | zero =>
      intro x hx
      rw [shrinkBlock, List.mem_append] at hx
      cases hx with
      | inl hm2 =>
        exact shrinkBlock1_wf b m (h b (List.mem_cons_self b rest)) hm x hm2
      | inr hm2 => exact h x (List.mem_cons_of_mem b hm2)
    | succ j =>
      intro x hx
      cases hx with
      | head => exact h b (List.mem_cons_self b rest)
      | tail _ hm2 =>
        exact ih j (fun y hy => h y (List.mem_cons_of_mem b hy)) x hm2

theorem shrinkBlock_size (bs : List Block) (i m : Nat) (hm : 2 ≤ m) :
    blocksSize (shrinkBlock bs i m) = blocksSize bs := by
  induction bs generalizing i with
  | nil => rfl
  | cons b rest ih =>
    cases i with
    | zero =>
      rw [shrinkBlock, blocksSize_append, blocksSize_cons,
        shrinkBlock1_size b m hm]
    | succ j =>
      rw [shrinkBlock, blocksSize_cons, blocksSize_cons, ih j]

theorem getD_append_left (l l2 : List Nat) (n : Nat) (h : n < l.length) :
    (l ++ l2).getD n 0 = l.getD n 0 := by
  rw [List.getD_eq_getElem?_getD, List.getD_eq_getElem?_getD,
    List.getElem?_append, if_pos h]

theorem getD_append_right (w X : List Nat) (k : Nat) :
    (w ++ X).getD (w.length + k) 0 = X.getD k 0 := by
  rw [List.getD_eq_getElem?_getD, List.getD_eq_getElem?_getD,
    List.getElem?_append, if_neg (by omega)]
  congr 2
  omega

theorem BlockAt_prefix (b : Block) (h : b.wf) (rest : List Nat) :
    BlockAt (b.words ++ rest) 0 b := by
  cases b with
  | clause aux lits =>
    simp only [Block.wf] at h
    simp only [BlockAt, Block.words, List.cons_append, List.append_assoc]
    refine ⟨rfl, h, rfl, ?_⟩
    intro j hj
    show (lits.length :: aux :: (lits ++ _)).getD (0 + 2 + j) 0
      = lits.getD j 0
    rw [show 0 + 2 + j = j + 1 + 1 from by omega]
    rw [List.getD_cons_succ, List.getD_cons_succ]
    exact getD_append_left lits _ j hj
  | padding len =>
    simp only [BlockAt, Block.words, List.cons_append]
    exact ⟨rfl, rfl⟩

theorem BlockAt_shift (w X : List Nat) (off : Nat) (blk : Block)
    (h : BlockAt X off blk) : BlockAt (w ++ X) (w.length + off) blk := by
  cases blk with
  | clause aux lits =>
    obtain ⟨h1, h2, h3, h4⟩ := h
    refine ⟨?_, h2, ?_, ?_⟩
    · rw [getD_append_right, h1]
    · rw [show w.length + off + 1 = w.length + (off + 1) from by omega,
        getD_append_right, h3]
    · intro j hj
      rw [show w.length + off + 2 + j = w.length + (off + 2 + j) from by
        omega, getD_append_right]
      exact h4 j hj
  | padding len =>
    obtain ⟨h1, h2⟩ := h
    refine ⟨?_, ?_⟩
    · rw [getD_append_right, h1]
    · rw [show w.length + off + 1 = w.length + (off + 1) from by omega,
        getD_append_right, h2]

theorem blocksWords_cons (b : Block) (bs : List Block) :
    blocksWords (b :: bs) = b.words ++ blocksWords bs := by
  simp [blocksWords]

theorem offsetOf_succ (b : Block) (bs : List Block) (i : Nat) :
    offsetOf (b :: bs) (i + 1) = b.bsize + offsetOf bs i := by
  simp only [offsetOf, List.take_succ_cons]
  rw [blocksSize_cons]

theorem layout (bs : List Block) (tail : List Nat) (h : blocksWF bs) :
    ∀ i, ∀ hi : i < bs.length,
      offsetOf bs i % 4 = 0 ∧
      BlockAt (blocksWords bs ++ tail) (offsetOf bs i) (bs.get ⟨i, hi⟩) := by
  induction bs generalizing tail with
  | nil =>
    intro i hi
    cases hi
  | cons b rest ih =>
    intro i hi
    have hb : b.wf := h b (List.mem_cons_self b rest)
    have hrest : blocksWF rest := fun y hy => h y (List.mem_cons_of_mem b hy)
    cases i with
    | zero =>
      refine ⟨rfl, ?_⟩
      rw [blocksWords_cons, List.append_assoc]
      exact BlockAt_prefix b hb _
    | succ j =>
      have hj : j < rest.length := by
        simp only [List.length_cons] at hi
        omega
      obtain ⟨ih1, ih2⟩ := ih tail hrest j hj
      refine ⟨?_, ?_⟩
      · rw [offsetOf_succ]
        have := bsize_mod4 b hb
        omega
      · rw [offsetOf_succ, blocksWords_cons, List.append_assoc,
          ← words_length b hb]
        simp only [List.get_cons_succ]
        exact BlockAt_shift b.words (blocksWords rest ++ tail)
          (offsetOf rest j) _ ih2

end Pool

namespace Pool

theorem reachable_inv (p : ClausePool) (h : Reachable p) :
    blocksWF p.blocks ∧ p.size ≤ p.capacity ∧ p.capacity % 4 = 0 := by
  induction h with
  | init =>
    refine ⟨?_, by decide, by decide⟩
    intro b hb
    simp [initPool, ClausePool.blocks] at hb
  | addProblem p aux lits hr h2 hlearn ih =>
    obtain ⟨hwf, hsz, hcap⟩ := ih
    have hcl : blocksSize [Block.clause aux lits] = round4 (lits.length + 2) := by
      simp [blocksSize, Block.bsize]
    refine ⟨?_, ?_, ?_⟩
    · intro b hb
      simp only [addProblemClause, ClausePool.blocks] at hb
      rw [List.mem_append] at hb
      cases hb with
      | inl hb1 =>
        rw [List.mem_append] at hb1
        cases hb1 with
        | inl hb2 => exact hwf b (List.mem_append_left _ hb2)
        | inr hb2 =>
          rw [List.mem_singleton] at hb2
          subst hb2
          exact h2
      | inr hb1 => exact hwf b (List.mem_append_right _ hb1)
    · simp only [addProblemClause, ClausePool.size, ClausePool.capacity,
        blocksSize_append, hcl]
      unfold ensureCapacity
      simp only [ClausePool.size] at hsz ⊢
      split_ifs with hle
      · simp only [ClausePool.size] at hle
        rw [hlearn] at hle ⊢
        simp only [blocksSize] at hle ⊢
        omega
      · have := round4_ge
          (p.size + round4 (lits.length + 2))
        simp only [ClausePool.size] at this
        rw [hlearn] at this ⊢
        simp only [blocksSize] at this ⊢
        omega
    · simp only [addProblemClause, ClausePool.capacity]
      unfold ensureCapacity
      split_ifs with hle
      · exact hcap
      · exact round4_mod _
  | addLearned p aux lits hr h2 ih =>
    obtain ⟨hwf, hsz, hcap⟩ := ih
    have hcl : blocksSize [Block.clause aux lits] = round4 (lits.length + 2) := by
      simp [blocksSize, Block.bsize]
    refine ⟨?_, ?_, ?_⟩
    · intro b hb
      simp only [addLearnedClause, ClausePool.blocks] at hb
      rw [List.mem_append] at hb
      cases hb with
      | inl hb1 => exact hwf b (List.mem_append_left _ hb1)
      | inr hb1 =>
        rw [List.mem_append] at hb1
        cases hb1 with
        | inl hb2 => exact hwf b (List.mem_append_right _ hb2)
        | inr hb2 =>
          rw [List.mem_singleton] at hb2
          subst hb2
          exact h2
    · simp only [addLearnedClause, ClausePool.size, ClausePool.capacity,
        blocksSize_append, hcl]
      unfold ensureCapacity
      simp only [ClausePool.size] at hsz ⊢
      split_ifs with hle
      · simp only [ClausePool.size] at hle
        omega
      · have := round4_ge (p.size + round4 (lits.length + 2))
        simp only [ClausePool.size] at this
        omega
    · simp only [addLearnedClause, ClausePool.capacity]
      unfold ensureCapacity
      split_ifs with hle
      · exact hcap
      · exact round4_mod _
  | delProblem p i hr ih =>
    obtain ⟨hwf, hsz, hcap⟩ := ih
    have hwfp : blocksWF p.problem :=
      fun y hy => hwf y (List.mem_append_left _ hy)
    refine ⟨?_, ?_, hcap⟩
    · intro b hb
      simp only [ClausePool.blocks] at hb
      rw [List.mem_append] at hb
      cases hb with
      | inl hb1 => exact deleteBlock_wf p.problem i hwfp b hb1
      | inr hb1 => exact hwf b (List.mem_append_right _ hb1)
    · simp only [ClausePool.size, ClausePool.capacity, deleteBlock_size]
      exact hsz
  | delLearned p i hr ih =>
    obtain ⟨hwf, hsz, hcap⟩ := ih
    have hwfl : blocksWF p.learnedb :=
      fun y hy => hwf y (List.mem_append_right _ hy)
    refine ⟨?_, ?_, hcap⟩
    · intro b hb
      simp only [ClausePool.blocks] at hb
      rw [List.mem_append] at hb
      cases hb with
      | inl hb1 => exact hwf b (List.mem_append_left _ hb1)
      | inr hb1 => exact deleteBlock_wf p.learnedb i hwfl b hb1
    · simp only [ClausePool.size, ClausePool.capacity, deleteBlock_size]
      exact hsz
  | shrinkProblem p i m hr hm ih =>
    obtain ⟨hwf, hsz, hcap⟩ := ih
    have hwfp : blocksWF p.problem :=
      fun y hy => hwf y (List.mem_append_left _ hy)
    refine ⟨?_, ?_, hcap⟩
    · intro b hb
      simp only [ClausePool.blocks] at hb
      rw [List.mem_append] at hb
      cases hb with
      | inl hb1 => exact shrinkBlock_wf p.problem i m hwfp hm b hb1
      | inr hb1 => exact hwf b (List.mem_append_right _ hb1)
    · simp only [ClausePool.size, ClausePool.capacity,
        shrinkBlock_size p.problem i m hm]
      exact hsz
  | shrinkLearned p i m hr hm ih =>
    obtain ⟨hwf, hsz, hcap⟩ := ih
    have hwfl : blocksWF p.learnedb :=
      fun y hy => hwf y (List.mem_append_right _ hy)
    refine ⟨?_, ?_, hcap⟩
    · intro b hb
      simp only [ClausePool.blocks] at hb
      rw [List.mem_append] at hb
      cases hb with
      | inl hb1 => exact hwf b (List.mem_append_left _ hb1)
      | inr hb1 => exact shrinkBlock_wf p.learnedb i m hwfl hm b hb1
    · simp only [ClausePool.size, ClausePool.capacity,
        shrinkBlock_size p.learnedb i m hm]
      exact hsz

end Pool

/-- C3: in every reachable clause-pool state, learned <= size <=
capacity and all three are multiples of four; every clause starts at a
4-aligned offset holding its length (at least 2), then its auxiliary
word, then its literals; every deleted or shortened region is a
padding block holding 0 and then its length, so clauses and padding
blocks are distinguished by the first word. -/
theorem claim_clause_pool_invariants :
    ∀ p : Pool.ClausePool, Pool.Reachable p → Pool.PoolSpec p := by
  intro p h
  obtain ⟨hwf, hsz, hcap⟩ := Pool.reachable_inv p h
  have hwfp : Pool.blocksWF p.problem :=
    fun y hy => hwf y (List.mem_append_left _ hy)
  have hwfl : Pool.blocksWF p.learnedb :=
    fun y hy => hwf y (List.mem_append_right _ hy)
  refine ⟨?_, hsz, ?_, ?_, hcap, ?_⟩
  · show Pool.blocksSize p.problem
      ≤ Pool.blocksSize p.problem + Pool.blocksSize p.learnedb
    omega
  · exact Pool.blocksSize_mod4 _ hwfp
  · have h1 := Pool.blocksSize_mod4 _ hwfp
    have h2 := Pool.blocksSize_mod4 _ hwfl
    show (Pool.blocksSize p.problem + Pool.blocksSize p.learnedb) % 4 = 0
    omega
  · intro i hi
    obtain ⟨h1, h2⟩ := Pool.layout p.blocks
      (List.replicate (p.capacity - p.size) 0) hwf i hi
    exact ⟨h1, hwf _ (List.get_mem p.blocks i hi), h2⟩

/-- C3 witness: the pool obtained by adding the problem clause with
auxiliary word 7 and literals [4, 5, 6] to the initial pool is
reachable and satisfies the pool invariant. -/
theorem claim_clause_pool_invariants_witness :
    Pool.PoolSpec (Pool.addProblemClause Pool.initPool 7 [4, 5, 6]) :=
  claim_clause_pool_invariants
    (Pool.addProblemClause Pool.initPool 7 [4, 5, 6])
    (Pool.Reachable.addProblem Pool.initPool 7 [4, 5, 6]
      Pool.Reachable.init (by decide) rfl)
